import Mathlib

/-!
BinarySearchSortedList, the MEX helper of the Brain Observatory Toolbox.

A shallow embedding of `+bot/+internal/BinarySearchSortedList_double_mex.c` and
`+bot/+internal/BinarySearchSortedList_int32_mex.c`.  The two files hold the same
algorithm, once over `double` and once over `int`.

* Entries and search items are `Val`: a number or NaN.  The only operation the code
  performs on them is the comparison `<`, which is false as soon as one side is NaN.
  Only the order of the numbers is observed, so numbers are `Int`; the `int32` file
  is the same program on values that are never NaN.
* Indices and bounds are C `int`s of 32 bits.  The three midpoint sums
  `vnBoundsLocal[0] + vnBoundsLocal[1]` (lines 106, 121 and 135) and the index
  `nListIndex+1` (line 128) are `int` additions, made before the cast to `double`.
  A sum past `2^31 - 1` is reduced modulo `2^32` into the `int` range by `wrapInt`,
  as the two's-complement machines do for which the MEX files are built; the
  conversion of the sum to `double`, the halving and the rounding are exact.  The
  parameter `vnBounds` is an `int` array, so bounds outside the `int` range are given
  no state.  The element counts `nListLength` and `nNumItems` are taken to fit an
  `int`.
* `while (true)` is run with an explicit fuel; `Outcome.running` means that the loop
  is still running when the fuel is used up.
* A read outside the list (`vfList[i]` with `i < 0` or `i ≥ length`) has no defined
  value in C; it is modelled as `Outcome.fault`.
-/

namespace Bot

/-- A list entry or a search item: a number, or the NaN of the `double` file. -/
inductive Val where
  | num (x : Int)
  | nan
  deriving DecidableEq, Repr

instance instOfNatVal (n : Nat) : OfNat Val n := ⟨Val.num n⟩

/-- The comparison `a < b` of the C code: false as soon as one side is NaN. -/
def Val.blt : Val → Val → Bool
  | Val.num a, Val.num b => decide (a < b)
  | _, _ => false

/-- The comparison `a <= b`: false as soon as one side is NaN. -/
def Val.ble : Val → Val → Bool
  | Val.num a, Val.num b => decide (a ≤ b)
  | _, _ => false

instance instLTVal : LT Val := ⟨fun a b => Val.blt a b = true⟩

instance instLEVal : LE Val := ⟨fun a b => Val.ble a b = true⟩

instance instDecidableLtVal (a b : Val) : Decidable (a < b) :=
  inferInstanceAs (Decidable (Val.blt a b = true))

instance instDecidableLeVal (a b : Val) : Decidable (a ≤ b) :=
  inferInstanceAs (Decidable (Val.ble a b = true))

/-- The value a C `int` holds after an arithmetic result `x`: `x` reduced modulo
`2^32` into `-2^31 .. 2^31 - 1`. -/
def wrapInt (x : Int) : Int := (x + 2147483648) % 4294967296 - 2147483648

/-- The array read `vfList[i]` for a C `int` index: defined inside the list only. -/
def readAt (vfList : List Val) (i : Int) : Option Val :=
  if 0 ≤ i then vfList[i.toNat]? else none

/-- Value of `round((double)(s)/2)` converted back to `int` (C99 `round`: halves are
rounded away from zero).  On `0 ≤ s` the `_WIN32` replacement `floor(val + 0.5)`
gives the same value; on an odd `s < 0` the replacement gives the value one higher.
Only a wrapped sum is negative, and it is at most `-2`: the index is negative with
either rounding. -/
def roundHalf (s : Int) : Int := if 0 ≤ s then (s + 1) / 2 else s / 2

/-- Value of `floor((double)(s)/2)` converted back to `int`. -/
def floorHalf (s : Int) : Int := s / 2

/-- Value of `ceil((double)(s)/2)` converted back to `int`. -/
def ceilHalf (s : Int) : Int := (s + 1) / 2

/-- The local variables of `BinarySearchSortedList`:
`vnBoundsLocal[0]`, `vnBoundsLocal[1]` and `nListIndex`. -/
structure SearchState where
  lo : Int
  hi : Int
  idx : Int
  deriving DecidableEq, Repr

/-- What one pass through the body of `while (true)` does. -/
inductive Step where
  | next (s : SearchState)
  | accept (nListIndex : Int)
  | fault
  deriving DecidableEq, Repr

/-- What a call of `BinarySearchSortedList` does. -/
inductive Outcome where
  | returned (nListIndex : Int)
  | fault
  | running
  deriving DecidableEq, Repr

/-- One pass through the body of `while (true)` (lines 118-137).  The second accept
test uses the non-short-circuit `&`, so `vfList[nListIndex+1]` is read whenever
`nListIndex != vnBoundsLocal[1]`.  The sums of the two bounds are `int` sums. -/
def searchStep (vfList : List Val) (fSearchItem : Val) (s : SearchState) : Step :=
  match readAt vfList s.idx with
  | none => Step.fault
  | some fListItem =>
    if fSearchItem < fListItem then
      -- Subdivide lower
      Step.next ⟨s.lo, s.idx, floorHalf (wrapInt (s.lo + s.idx))⟩
    else if s.idx = s.hi then
      -- Accept condition
      Step.accept s.idx
    else
      match readAt vfList (wrapInt (s.idx + 1)) with
      | none => Step.fault
      | some fNextItem =>
        if s.idx < s.hi ∧ fSearchItem < fNextItem then
          -- Accept condition
          Step.accept s.idx
        else
          -- Subdivide upper
          Step.next ⟨s.idx, s.hi, ceilHalf (wrapInt (s.idx + s.hi))⟩

/-- The loop `while (true)` run for at most `fuel` passes. -/
def searchLoop (vfList : List Val) (fSearchItem : Val) : Nat → SearchState → Outcome
  | 0, _ => Outcome.running
  | fuel + 1, s =>
    match searchStep vfList fSearchItem s with
    | Step.next s' => searchLoop vfList fSearchItem fuel s'
    | Step.accept nListIndex => Outcome.returned nListIndex
    | Step.fault => Outcome.fault

/-- The state on entry to the loop: the local copy of the bounds and the initial
index `round((lo + hi)/2)` of the `int` sum `lo + hi` (lines 103-106).  The bounds
are the two `int`s of `vnBounds`; there is no state for bounds an `int` cannot
hold. -/
def initState (vnBounds : Int × Int) : Option SearchState :=
  if -2147483648 ≤ vnBounds.1 ∧ vnBounds.1 ≤ 2147483647 ∧
      -2147483648 ≤ vnBounds.2 ∧ vnBounds.2 ≤ 2147483647 then
    some ⟨vnBounds.1, vnBounds.2, roundHalf (wrapInt (vnBounds.1 + vnBounds.2))⟩
  else none

/-- The function `BinarySearchSortedList(vfList, fSearchItem, vnBounds)`, its loop
run for at most `fuel` passes. -/
def BinarySearchSortedList (fuel : Nat) (vfList : List Val) (fSearchItem : Val)
    (vnBounds : Int × Int) : Outcome :=
  match initState vnBounds with
  | none => Outcome.fault
  | some s => searchLoop vfList fSearchItem fuel s

/-- The loop state at the start of pass number `k` (counted from 0) of a call, when
the call is still in its loop then. -/
def stateAfter (vfList : List Val) (fSearchItem : Val) (vnBounds : Int × Int) :
    Nat → Option SearchState
  | 0 => initState vnBounds
  | k + 1 =>
    match stateAfter vfList fSearchItem vnBounds k with
    | none => none
    | some s =>
      match searchStep vfList fSearchItem s with
      | Step.next s' => some s'
      | _ => none

/-- How a run of `mexFunction` ends. -/
inductive Status where
  | finished
  | fault
  | running
  deriving DecidableEq, Repr

/-- What a run of `mexFunction` leaves behind: the output buffer
`vnPreviousSample` (created filled with zeros), and the bounds handed to each call
of `BinarySearchSortedList`, in call order. -/
structure MexRun where
  vnPreviousSample : List Int
  calls : List (Int × Int)
  status : Status
  deriving DecidableEq, Repr

/-- The loop "Find other items" (lines 192-208), with `n` passes left to run,
`vnBoundIndices = (lo, hi)`. -/
def otherItems (fuel : Nat) (vfList vfItems : List Val) :
    Nat → Int → Int → Int → List Int → List (Int × Int) → MexRun
  | 0, _, _, _, out, calls => ⟨out, calls, Status.finished⟩
  | n + 1, nItemIndex, lo, hi, out, calls =>
    match readAt vfItems nItemIndex with
    | none => ⟨out, calls, Status.fault⟩
    | some fItem =>
      match BinarySearchSortedList fuel vfList fItem (lo, hi) with
      | Outcome.returned nCurrentIndex =>
        otherItems fuel vfList vfItems n (nItemIndex + 1) nCurrentIndex hi
          (out.set nItemIndex.toNat (nCurrentIndex + 1)) (calls ++ [(lo, hi)])
      | Outcome.fault => ⟨out, calls ++ [(lo, hi)], Status.fault⟩
      | Outcome.running => ⟨out, calls ++ [(lo, hi)], Status.running⟩

/-- The entry point `mexFunction` on the list `vfList` and the items `vfItems`
(lines 153-208); every call of `BinarySearchSortedList` gets `fuel` passes. -/
def mexFunction (fuel : Nat) (vfList vfItems : List Val) : MexRun :=
  let nListLength : Int := vfList.length
  let nNumItems : Int := vfItems.length
  let out0 : List Int := List.replicate vfItems.length 0
  -- Find first item
  match readAt vfItems 0 with
  | none => ⟨out0, [], Status.fault⟩
  | some fFirst =>
    match BinarySearchSortedList fuel vfList fFirst (0, nListLength - 1) with
    | Outcome.fault => ⟨out0, [(0, nListLength - 1)], Status.fault⟩
    | Outcome.running => ⟨out0, [(0, nListLength - 1)], Status.running⟩
    | Outcome.returned nFirst =>
      let out1 := out0.set 0 (nFirst + 1)
      -- Find last item
      if nNumItems > 1 then
        match readAt vfItems (nNumItems - 1) with
        | none => ⟨out1, [(0, nListLength - 1)], Status.fault⟩
        | some fLast =>
          let calls2 := [(0, nListLength - 1), (nFirst, nListLength - 1)]
          match BinarySearchSortedList fuel vfList fLast (nFirst, nListLength - 1) with
          | Outcome.fault => ⟨out1, calls2, Status.fault⟩
          | Outcome.running => ⟨out1, calls2, Status.running⟩
          | Outcome.returned nLast =>
            let out2 := out1.set (nNumItems - 1).toNat (nLast + 1)
            let hi := if nFirst + 1 > nLast then nFirst + 1 else nLast
            -- Find other items
            otherItems fuel vfList vfItems (nNumItems - 2).toNat 1 nFirst hi out2 calls2
      else ⟨out1, [(0, nListLength - 1)], Status.finished⟩

/-- Facts that hold of the local variables at the start of a pass of the loop, in a
call with bounds `(lo0, hi0)`, as long as no `int` sum has wrapped: the index lies
between the local bounds, the local bounds lie inside the bounds of the call, a
lowered upper bound sits on an entry above the search item, a raised lower bound
sits on an entry the search item is not below, and the index equals a lower bound
strictly below the upper bound only at width one, after a "subdivide lower". -/
structure Inv (S : List Val) (v : Val) (lo0 hi0 : Int) (s : SearchState) : Prop where
  lo_ge : lo0 ≤ s.lo
  lo_le : s.lo ≤ s.idx
  le_hi : s.idx ≤ s.hi
  hi_le : s.hi ≤ hi0
  hi_gt : s.hi = hi0 ∨ ∃ y, readAt S s.hi = some y ∧ v < y
  lo_ok : s.lo = lo0 ∨ ∃ x, readAt S s.lo = some x ∧ ¬ v < x
  at_lo : s.idx = s.lo → s.lo < s.hi →
    s.hi = s.lo + 1 ∧ ∃ y, readAt S s.hi = some y ∧ v < y

/-- The indices of `vfList` that one pass through the body of `while (true)` reads
(lines 118 and 128): `vfList[nListIndex]` always, and `vfList[nListIndex+1]` whenever
the pass gets to the test with the non-short-circuit `&`. -/
def stepReads (vfList : List Val) (fSearchItem : Val) (s : SearchState) : List Int :=
  match readAt vfList s.idx with
  | none => [s.idx]
  | some fListItem =>
    if fSearchItem < fListItem then [s.idx]
    else if s.idx = s.hi then [s.idx]
    else [s.idx, wrapInt (s.idx + 1)]

/-- The read `vfList(i)` of the MATLAB reference in the header comment: the list is
indexed from 1, and an index outside `1 .. numel(vfList)` is an error. -/
def matlabRead (vfList : List Val) (i : Int) : Option Val :=
  if 1 ≤ i then vfList[(i - 1).toNat]? else none

/-- One pass through `while true` of the MATLAB reference `BinarySearchSortedList` of
the header comment (lines 63-86), on 1-based bounds and index.  Its `&&`
short-circuits: `vfList(nListIndex+1)` is read only when
`nListIndex < vnBounds(2)`.  The bounds are MATLAB doubles: their sum does not
wrap. -/
def matlabStep (vfList : List Val) (fSearchItem : Val) (s : SearchState) : Step :=
  match matlabRead vfList s.idx with
  | none => Step.fault
  | some fListItem =>
    if fSearchItem < fListItem then
      Step.next ⟨s.lo, s.idx, floorHalf (s.lo + s.idx)⟩
    else if s.idx = s.hi then
      Step.accept s.idx
    else if s.idx < s.hi then
      match matlabRead vfList (s.idx + 1) with
      | none => Step.fault
      | some fNextItem =>
        if fSearchItem < fNextItem then Step.accept s.idx
        else Step.next ⟨s.idx, s.hi, ceilHalf (s.idx + s.hi)⟩
    else
      Step.next ⟨s.idx, s.hi, ceilHalf (s.idx + s.hi)⟩

/-- The loop `while true` of the MATLAB reference, run for at most `fuel` passes. -/
def matlabLoop (vfList : List Val) (fSearchItem : Val) : Nat → SearchState → Outcome
  | 0, _ => Outcome.running
  | fuel + 1, s =>
    match matlabStep vfList fSearchItem s with
    | Step.next s' => matlabLoop vfList fSearchItem fuel s'
    | Step.accept nListIndex => Outcome.returned nListIndex
    | Step.fault => Outcome.fault

/-- The MATLAB reference `BinarySearchSortedList(vfList, fSearchItem, vnBounds)` of
the header comment (lines 58-88): MATLAB `round` rounds halves away from zero, as
C `round` does. -/
def matlabBinarySearchSortedList (fuel : Nat) (vfList : List Val) (fSearchItem : Val)
    (vnBounds : Int × Int) : Outcome :=
  matlabLoop vfList fSearchItem fuel
    ⟨vnBounds.1, vnBounds.2, roundHalf (vnBounds.1 + vnBounds.2)⟩

theorem Val.lt_iff (a b : Val) : a < b ↔ Val.blt a b = true := Iff.rfl

theorem Val.le_iff (a b : Val) : a ≤ b ↔ Val.ble a b = true := Iff.rfl

theorem Val.num_lt_num (a b : Int) : Val.num a < Val.num b ↔ a < b := by
  simp [Val.lt_iff, Val.blt]

theorem Val.num_le_num (a b : Int) : Val.num a ≤ Val.num b ↔ a ≤ b := by
  simp [Val.le_iff, Val.ble]

theorem Val.not_lt_nan (a : Val) : ¬ a < Val.nan := by
  cases a <;> simp [Val.lt_iff, Val.blt]

theorem Val.not_nan_lt (a : Val) : ¬ Val.nan < a := by
  cases a <;> simp [Val.lt_iff, Val.blt]

theorem Val.not_lt_self (a : Val) : ¬ a < a := by
  cases a <;> simp [Val.lt_iff, Val.blt]

theorem Val.lt_of_lt_of_le {v a x : Val} (h1 : v < a) (h2 : a ≤ x) : v < x := by
  cases v <;> cases a <;> cases x <;>
    simp [Val.lt_iff, Val.le_iff, Val.blt, Val.ble] at h1 h2 ⊢
  omega

theorem Val.not_lt_of_le {v x : Val} (h : x ≤ v) : ¬ v < x := by
  cases v <;> cases x <;> simp [Val.lt_iff, Val.le_iff, Val.blt, Val.ble] at h ⊢
  omega

theorem Val.le_of_not_lt {v x : Val} (h : ¬ v < x) (hx : x ≠ Val.nan) (hv : v ≠ Val.nan) :
    x ≤ v := by
  cases v <;> cases x <;> simp [Val.lt_iff, Val.le_iff, Val.blt, Val.ble] at h hx hv ⊢
  omega

/-! ## The `int` sums -/

theorem wrapInt_eq {x : Int} (h1 : -2147483648 ≤ x) (h2 : x ≤ 2147483647) :
    wrapInt x = x := by
  unfold wrapInt
  omega

theorem wrapInt_over {x : Int} (h1 : 2147483648 ≤ x) (h2 : x ≤ 4294967294) :
    wrapInt x = x - 4294967296 := by
  unfold wrapInt
  omega

/-! ## Reading the list -/

theorem readAt_bounds {S : List Val} {i : Int} {x : Val} (h : readAt S i = some x) :
    0 ≤ i ∧ i < S.length := by
  unfold readAt at h
  split_ifs at h with h0
  obtain ⟨hlt, -⟩ := List.getElem?_eq_some.1 h
  omega

theorem readAt_defined {S : List Val} {i : Int} (h0 : 0 ≤ i) (h1 : i < S.length) :
    ∃ x, readAt S i = some x := by
  have hlt : i.toNat < S.length := by omega
  exact ⟨S[i.toNat], by simp [readAt, h0, List.getElem?_eq_getElem hlt]⟩

theorem readAt_neg (S : List Val) {i : Int} (h : i < 0) : readAt S i = none := by
  unfold readAt
  rw [if_neg (by omega)]

theorem readAt_mono {S : List Val} (hS : List.Pairwise (· ≤ ·) S) {i j : Int} {x y : Val}
    (hij : i < j) (hx : readAt S i = some x) (hy : readAt S j = some y) : x ≤ y := by
  have bi := readAt_bounds hx
  have bj := readAt_bounds hy
  unfold readAt at hx hy
  rw [if_pos bi.1] at hx
  rw [if_pos bj.1] at hy
  obtain ⟨hi, rfl⟩ := List.getElem?_eq_some.1 hx
  obtain ⟨hj, rfl⟩ := List.getElem?_eq_some.1 hy
  exact List.pairwise_iff_getElem.1 hS _ _ hi hj (by omega)

theorem readAt_natCast (Q : List Val) (k : Nat) : readAt Q (k : Int) = Q[k]? := by
  simp [readAt]

/-! ## The loop invariant of `BinarySearchSortedList` -/

theorem initState_eq {lo hi : Int} (h0 : 0 ≤ lo) (h1 : lo ≤ hi) (hmax : hi ≤ 2147483647) :
    initState (lo, hi) = some ⟨lo, hi, roundHalf (wrapInt (lo + hi))⟩ := by
  unfold initState
  rw [if_pos ⟨by show (-2147483648 : Int) ≤ lo; omega, by show lo ≤ 2147483647; omega,
    by show (-2147483648 : Int) ≤ hi; omega, hmax⟩]

theorem inv_init (S : List Val) (v : Val) {lo hi : Int} (h0 : 0 ≤ lo) (h1 : lo ≤ hi)
    (hsum : lo + hi ≤ 2147483647) :
    Inv S v lo hi ⟨lo, hi, roundHalf (wrapInt (lo + hi))⟩ := by
  have hr : roundHalf (wrapInt (lo + hi)) = (lo + hi + 1) / 2 := by
    rw [wrapInt_eq (by omega) hsum]
    unfold roundHalf
    rw [if_pos (by omega)]
  refine ⟨le_refl _, ?_, ?_, le_refl _, Or.inl rfl, Or.inl rfl, ?_⟩
  · show lo ≤ roundHalf (wrapInt (lo + hi))
    rw [hr]; omega
  · show roundHalf (wrapInt (lo + hi)) ≤ hi
    rw [hr]; omega
  · intro h2 h3
    change roundHalf (wrapInt (lo + hi)) = lo at h2
    change lo < hi at h3
    rw [hr] at h2
    omega

theorem init_neg {lo hi : Int} (h1 : lo ≤ hi) (hmax : hi ≤ 2147483647)
    (hsum : 2147483648 ≤ lo + hi) : roundHalf (wrapInt (lo + hi)) < 0 := by
  rw [wrapInt_over hsum (by omega)]
  unfold roundHalf
  rw [if_neg (by omega)]
  omega

theorem inv_lower {S : List Val} {v : Val} {lo0 hi0 : Int} {s : SearchState}
    (h : Inv S v lo0 hi0 s) (h0 : 0 ≤ lo0) {x : Val} (hx : readAt S s.idx = some x)
    (hv : v < x) (hsum : s.lo + s.idx ≤ 2147483647) :
    Inv S v lo0 hi0 ⟨s.lo, s.idx, floorHalf (wrapInt (s.lo + s.idx))⟩ := by
  have h1 := h.lo_le
  have h2 := h.le_hi
  have h3 := h.hi_le
  have h4 := h.lo_ge
  have hf : floorHalf (wrapInt (s.lo + s.idx)) = (s.lo + s.idx) / 2 := by
    rw [wrapInt_eq (by omega) hsum]
    rfl
  refine ⟨h.lo_ge, ?_, ?_, ?_, Or.inr ⟨x, hx, hv⟩, h.lo_ok, ?_⟩
  · show s.lo ≤ floorHalf (wrapInt (s.lo + s.idx))
    rw [hf]; omega
  · show floorHalf (wrapInt (s.lo + s.idx)) ≤ s.idx
    rw [hf]; omega
  · show s.idx ≤ hi0
    omega
  · intro h5 h6
    change floorHalf (wrapInt (s.lo + s.idx)) = s.lo at h5
    change s.lo < s.idx at h6
    rw [hf] at h5
    exact ⟨by show s.idx = s.lo + 1; omega, x, hx, hv⟩

theorem inv_upper {S : List Val} {v : Val} {lo0 hi0 : Int} {s : SearchState}
    (h : Inv S v lo0 hi0 s) (h0 : 0 ≤ lo0) {x : Val} (hx : readAt S s.idx = some x)
    (hv : ¬ v < x) (hlt : s.idx < s.hi) (hsum : s.idx + s.hi ≤ 2147483647) :
    Inv S v lo0 hi0 ⟨s.idx, s.hi, ceilHalf (wrapInt (s.idx + s.hi))⟩ := by
  have h1 := h.lo_le
  have h2 := h.lo_ge
  have hc : ceilHalf (wrapInt (s.idx + s.hi)) = (s.idx + s.hi + 1) / 2 := by
    rw [wrapInt_eq (by omega) hsum]
    rfl
  refine ⟨?_, ?_, ?_, h.hi_le, h.hi_gt, Or.inr ⟨x, hx, hv⟩, ?_⟩
  · show lo0 ≤ s.idx
    omega
  · show s.idx ≤ ceilHalf (wrapInt (s.idx + s.hi))
    rw [hc]; omega
  · show ceilHalf (wrapInt (s.idx + s.hi)) ≤ s.hi
    rw [hc]; omega
  · intro h4 h5
    change ceilHalf (wrapInt (s.idx + s.hi)) = s.idx at h4
    rw [hc] at h4
    omega

/-- In a "subdivide upper" pass the index is strictly above the lower bound. -/
theorem inv_upper_lo_lt {S : List Val} {v : Val} {lo0 hi0 : Int} {s : SearchState}
    (h : Inv S v lo0 hi0 s) (hlt : s.idx < s.hi) {y : Val}
    (hy : readAt S (s.idx + 1) = some y) (hv : ¬ v < y) : s.lo < s.idx := by
  by_contra hcon
  have h1 := h.lo_le
  have heq : s.idx = s.lo := by omega
  obtain ⟨h2, y', hy', hv'⟩ := h.at_lo heq (by omega)
  have : s.idx + 1 = s.hi := by omega
  rw [this, hy'] at hy
  cases hy
  exact hv hv'

/-- The four ways through the loop body, from a state that satisfies the invariant of
a call whose bounds lie inside the list: no read leaves the list. -/
theorem searchStep_cases {S : List Val} {v : Val} {lo0 hi0 : Int} {s : SearchState}
    (h0 : 0 ≤ lo0) (hmax : hi0 ≤ 2147483647) (hlen : hi0 < S.length)
    (h : Inv S v lo0 hi0 s) :
    (∃ x, readAt S s.idx = some x ∧ v < x ∧
        searchStep S v s = Step.next ⟨s.lo, s.idx, floorHalf (wrapInt (s.lo + s.idx))⟩) ∨
    (∃ x, readAt S s.idx = some x ∧ ¬ v < x ∧ s.idx = s.hi ∧
        searchStep S v s = Step.accept s.idx) ∨
    (∃ x y, readAt S s.idx = some x ∧ ¬ v < x ∧ s.idx < s.hi ∧
        readAt S (s.idx + 1) = some y ∧ v < y ∧ searchStep S v s = Step.accept s.idx) ∨
    (∃ x y, readAt S s.idx = some x ∧ ¬ v < x ∧ s.idx < s.hi ∧
        readAt S (s.idx + 1) = some y ∧ ¬ v < y ∧
        searchStep S v s = Step.next ⟨s.idx, s.hi, ceilHalf (wrapInt (s.idx + s.hi))⟩) := by
  have h1 := h.lo_ge
  have h2 := h.lo_le
  have h3 := h.le_hi
  have h4 := h.hi_le
  obtain ⟨x, hx⟩ := readAt_defined (S := S) (i := s.idx) (by omega) (by omega)
  by_cases hv : v < x
  · left
    exact ⟨x, hx, hv, by simp only [searchStep, hx]; simp [hv]⟩
  · by_cases he : s.idx = s.hi
    · right; left
      exact ⟨x, hx, hv, he, by simp only [searchStep, hx]; simp [hv, he]⟩
    · have hlt : s.idx < s.hi := by omega
      have hw1 : wrapInt (s.idx + 1) = s.idx + 1 := wrapInt_eq (by omega) (by omega)
      obtain ⟨y, hy⟩ := readAt_defined (S := S) (i := s.idx + 1) (by omega) (by omega)
      by_cases hw : v < y
      · right; right; left
        exact ⟨x, y, hx, hv, hlt, hy, hw,
          by simp only [searchStep, hx, hw1, hy]; simp [hv, he, hlt, hw]⟩
      · right; right; right
        exact ⟨x, y, hx, hv, hlt, hy, hw,
          by simp only [searchStep, hx, hw1, hy]; simp [hv, he, hw]⟩

/-- A pass that starts with a negative index reads outside the list. -/
theorem searchStep_neg (S : List Val) (v : Val) {s : SearchState} (h : s.idx < 0) :
    searchStep S v s = Step.fault := by
  simp only [searchStep, readAt_neg S h]

theorem searchLoop_neg (S : List Val) (v : Val) {s : SearchState} (h : s.idx < 0) (n : Nat) :
    searchLoop S v (n + 1) s = Outcome.fault := by
  simp only [searchLoop, searchStep_neg S v h]

/-- With the upper bound of the call below `2^30` no `int` sum wraps.  From a state
that satisfies the invariant and whose lower bound sits on an entry the search item
is not below, the loop returns within `2 * (hi - lo) + 2` passes (one pass less when
the index is below the upper bound), and the index returned is inside the bounds of
the call, sits on an entry the search item is not below, and is either the upper
bound of the call or followed by an entry above the search item.  The list need
not be sorted. -/
theorem searchLoop_returns {S : List Val} {v : Val} {lo0 hi0 : Int}
    (h0 : 0 ≤ lo0) (hsmall : hi0 ≤ 1073741823) (hlen : hi0 < S.length) :
    ∀ (n : Nat) (s : SearchState), Inv S v lo0 hi0 s →
      (∃ x, readAt S s.lo = some x ∧ ¬ v < x) →
      2 * (s.hi - s.lo) + (if s.idx = s.hi then 1 else 0) < (n : Int) →
      ∃ r, searchLoop S v n s = Outcome.returned r ∧ lo0 ≤ r ∧ r ≤ hi0 ∧
        (∃ x, readAt S r = some x ∧ ¬ v < x) ∧
        (r = hi0 ∨ ∃ y, readAt S (r + 1) = some y ∧ v < y) := by
  intro n
  induction n with
  | zero =>
    intro s h _ hm
    have h1 := h.lo_le
    have h2 := h.le_hi
    split_ifs at hm <;> omega
  | succ n ih =>
    intro s h hlo hm
    have h1 := h.lo_ge
    have h2 := h.lo_le
    have h3 := h.le_hi
    have h4 := h.hi_le
    rcases searchStep_cases h0 (by omega) hlen h with
      ⟨x, hx, hv, hstep⟩ | ⟨x, hx, hv, he, hstep⟩ | ⟨x, y, hx, hv, hlt, hy, hw, hstep⟩ |
      ⟨x, y, hx, hv, hlt, hy, hw, hstep⟩
    · -- subdivide lower
      have hne : s.lo < s.idx := by
        by_contra hcon
        have heq : s.idx = s.lo := by omega
        obtain ⟨x', hx', hv'⟩ := hlo
        rw [heq, hx'] at hx
        cases hx
        exact hv' hv
      have hf : floorHalf (wrapInt (s.lo + s.idx)) = (s.lo + s.idx) / 2 := by
        rw [wrapInt_eq (by omega) (by omega)]
        rfl
      have hrec := ih ⟨s.lo, s.idx, floorHalf (wrapInt (s.lo + s.idx))⟩
        (inv_lower h h0 hx hv (by omega)) hlo (by
        show 2 * (s.idx - s.lo) +
          (if floorHalf (wrapInt (s.lo + s.idx)) = s.idx then 1 else 0) < (n : Int)
        have hfne : floorHalf (wrapInt (s.lo + s.idx)) ≠ s.idx := by rw [hf]; omega
        rw [if_neg hfne]
        push_cast at hm
        split_ifs at hm <;> omega)
      simpa [searchLoop, hstep] using hrec
    · -- accept at the upper bound
      refine ⟨s.idx, by simp [searchLoop, hstep], by omega, by omega, ⟨x, hx, hv⟩, ?_⟩
      rcases h.hi_gt with hh | ⟨y, hy, hw⟩
      · left; omega
      · rw [← he, hx] at hy
        cases hy
        exact absurd hw hv
    · -- accept below the upper bound
      exact ⟨s.idx, by simp [searchLoop, hstep], by omega, by omega, ⟨x, hx, hv⟩,
        Or.inr ⟨y, hy, hw⟩⟩
    · -- subdivide upper
      have hgt := inv_upper_lo_lt h hlt hy hw
      have hrec := ih ⟨s.idx, s.hi, ceilHalf (wrapInt (s.idx + s.hi))⟩
        (inv_upper h h0 hx hv hlt (by omega)) ⟨x, hx, hv⟩ (by
        show 2 * (s.hi - s.idx) +
          (if ceilHalf (wrapInt (s.idx + s.hi)) = s.hi then 1 else 0) < (n : Int)
        push_cast at hm
        rw [if_neg (by omega)] at hm
        split_ifs <;> omega)
      simpa [searchLoop, hstep] using hrec

/-- A call whose bounds lie inside a list, with the upper bound below `2^30`, and
whose lower bound sits on an entry the search item is not below returns, whenever
it is given at least `2 * (hi - lo) + 2` passes. -/
theorem search_returns (S : List Val) (v : Val) (lo hi : Int) (h0 : 0 ≤ lo) (h1 : lo ≤ hi)
    (hsmall : hi ≤ 1073741823) (hlen : hi < S.length)
    (hlo : ∃ x, readAt S lo = some x ∧ ¬ v < x)
    (fuel : Nat) (hfuel : 2 * (hi - lo) + 2 ≤ (fuel : Int)) :
    ∃ r, BinarySearchSortedList fuel S v (lo, hi) = Outcome.returned r ∧ lo ≤ r ∧ r ≤ hi ∧
      (∃ x, readAt S r = some x ∧ ¬ v < x) ∧
      (r = hi ∨ ∃ y, readAt S (r + 1) = some y ∧ v < y) := by
  unfold BinarySearchSortedList
  rw [initState_eq h0 h1 (by omega)]
  refine searchLoop_returns h0 hsmall hlen fuel _ (inv_init S v h0 h1 (by omega)) hlo ?_
  show 2 * (hi - lo) + (if roundHalf (wrapInt (lo + hi)) = hi then 1 else 0) < (fuel : Int)
  split_ifs <;> omega

/-! ## A search item below the lower bound -/

/-- On a non-decreasing list whose entry at the lower bound of the call is above the
search item, with the upper bound of the call below `2^30`, every pass is a
"subdivide lower" and the loop never returns. -/
theorem searchLoop_runs {S : List Val} (hS : List.Pairwise (· ≤ ·) S) {v a : Val}
    {lo0 hi0 : Int} (h0 : 0 ≤ lo0) (hsmall : hi0 ≤ 1073741823) (hlen : hi0 < S.length)
    (ha : readAt S lo0 = some a) (hva : v < a) :
    ∀ (n : Nat) (s : SearchState), s.lo = lo0 → lo0 ≤ s.idx → s.idx ≤ hi0 →
      searchLoop S v n s = Outcome.running := by
  intro n
  induction n with
  | zero => intro s _ _ _; rfl
  | succ n ih =>
    intro s h1 h2 h3
    obtain ⟨x, hx⟩ := readAt_defined (S := S) (i := s.idx) (by omega) (by omega)
    have hv : v < x := by
      rcases eq_or_lt_of_le h2 with heq | hlt
      · rw [← heq, ha] at hx
        cases hx
        exact hva
      · exact Val.lt_of_lt_of_le hva (readAt_mono hS hlt ha hx)
    have hf : floorHalf (wrapInt (s.lo + s.idx)) = (s.lo + s.idx) / 2 := by
      rw [wrapInt_eq (by omega) (by omega)]
      rfl
    have hstep : searchStep S v s =
        Step.next ⟨s.lo, s.idx, floorHalf (wrapInt (s.lo + s.idx))⟩ := by
      simp only [searchStep, hx]; simp [hv]
    have hrec := ih ⟨s.lo, s.idx, floorHalf (wrapInt (s.lo + s.idx))⟩ h1
      (by show lo0 ≤ floorHalf (wrapInt (s.lo + s.idx)); rw [hf]; omega)
      (by show floorHalf (wrapInt (s.lo + s.idx)) ≤ hi0; rw [hf]; omega)
    simpa [searchLoop, hstep] using hrec

/-- On a non-decreasing list, a call whose bounds lie inside the list, with the upper
bound below `2^30`, and whose lower bound sits on an entry above the search item is
still in its loop after any number of passes. -/
theorem search_runs_forever (S : List Val) (hS : List.Pairwise (· ≤ ·) S) (v a : Val)
    (lo hi : Int) (h0 : 0 ≤ lo) (h1 : lo ≤ hi) (hsmall : hi ≤ 1073741823)
    (hlen : hi < S.length) (ha : readAt S lo = some a) (hva : v < a) (fuel : Nat) :
    BinarySearchSortedList fuel S v (lo, hi) = Outcome.running := by
  unfold BinarySearchSortedList
  rw [initState_eq h0 h1 (by omega)]
  have hr : roundHalf (wrapInt (lo + hi)) = (lo + hi + 1) / 2 := by
    rw [wrapInt_eq (by omega) (by omega)]
    unfold roundHalf
    rw [if_pos (by omega)]
  refine searchLoop_runs hS h0 hsmall hlen ha hva fuel _ rfl ?_ ?_
  · show lo ≤ roundHalf (wrapInt (lo + hi))
    rw [hr]; omega
  · show roundHalf (wrapInt (lo + hi)) ≤ hi
    rw [hr]; omega

/-- On a non-decreasing list whose entry at the lower bound is above the search item,
with the upper bound of the call below `2^30`, the call is in its loop at the
start of every pass `k`, with the lower bound as it was, and the index and the
upper bound have come down to the lower bound by at least one per pass. -/
theorem stateAfter_below {S : List Val} (hS : List.Pairwise (· ≤ ·) S) {v a : Val}
    {lo hi : Int} (h0 : 0 ≤ lo) (h1 : lo ≤ hi) (hsmall : hi ≤ 1073741823)
    (hlen : hi < S.length) (ha : readAt S lo = some a) (hva : v < a) :
    ∀ k : Nat, ∃ s, stateAfter S v (lo, hi) k = some s ∧ s.lo = lo ∧ lo ≤ s.idx ∧
      s.idx ≤ s.hi ∧ s.hi ≤ hi ∧ (s.idx - lo + k ≤ hi - lo ∨ s.idx = lo) ∧
      (s.hi - lo + k ≤ hi - lo + 1 ∨ s.hi = lo) := by
  intro k
  induction k with
  | zero =>
    have hr : roundHalf (wrapInt (lo + hi)) = (lo + hi + 1) / 2 := by
      rw [wrapInt_eq (by omega) (by omega)]
      unfold roundHalf
      rw [if_pos (by omega)]
    refine ⟨⟨lo, hi, roundHalf (wrapInt (lo + hi))⟩, initState_eq h0 h1 (by omega), rfl,
      ?_, ?_, le_refl _, ?_, ?_⟩
    · show lo ≤ roundHalf (wrapInt (lo + hi))
      rw [hr]; omega
    · show roundHalf (wrapInt (lo + hi)) ≤ hi
      rw [hr]; omega
    · left
      show roundHalf (wrapInt (lo + hi)) - lo + ((0 : Nat) : Int) ≤ hi - lo
      rw [hr]; omega
    · left
      show hi - lo + ((0 : Nat) : Int) ≤ hi - lo + 1
      omega
  | succ k ih =>
    obtain ⟨s, hs, e1, e2, e3, e4, e5, e6⟩ := ih
    obtain ⟨x, hx⟩ := readAt_defined (S := S) (i := s.idx) (by omega) (by omega)
    have hv : v < x := by
      rcases eq_or_lt_of_le e2 with heq | hlt
      · rw [← heq, ha] at hx
        cases hx
        exact hva
      · exact Val.lt_of_lt_of_le hva (readAt_mono hS hlt ha hx)
    have hf : floorHalf (wrapInt (s.lo + s.idx)) = (s.lo + s.idx) / 2 := by
      rw [wrapInt_eq (by omega) (by omega)]
      rfl
    have hstep : searchStep S v s =
        Step.next ⟨s.lo, s.idx, floorHalf (wrapInt (s.lo + s.idx))⟩ := by
      simp only [searchStep, hx]; simp [hv]
    refine ⟨⟨s.lo, s.idx, floorHalf (wrapInt (s.lo + s.idx))⟩,
      by simp [stateAfter, hs, hstep], e1, ?_, ?_, ?_, ?_, ?_⟩
    · show lo ≤ floorHalf (wrapInt (s.lo + s.idx))
      rw [hf]; omega
    · show floorHalf (wrapInt (s.lo + s.idx)) ≤ s.idx
      rw [hf]; omega
    · show s.idx ≤ hi
      omega
    · show floorHalf (wrapInt (s.lo + s.idx)) - lo + ((k + 1 : Nat) : Int) ≤ hi - lo ∨
        floorHalf (wrapInt (s.lo + s.idx)) = lo
      rw [hf]
      push_cast
      omega
    · show s.idx - lo + ((k + 1 : Nat) : Int) ≤ hi - lo + 1 ∨ s.idx = lo
      push_cast
      omega

/-! ## Lists of more than `2^30` entries -/

/-- A call with bounds `0 ≤ lo ≤ hi` whose `int` sum `lo + hi` wraps starts with a
negative index and reads outside the list in its first pass. -/
theorem search_wraps_at_entry (S : List Val) (v : Val) (lo hi : Int) (h0 : 0 ≤ lo)
    (h1 : lo ≤ hi) (hmax : hi ≤ 2147483647) (hsum : 2147483648 ≤ lo + hi) (fuel : Nat) :
    BinarySearchSortedList (fuel + 1) S v (lo, hi) = Outcome.fault := by
  unfold BinarySearchSortedList
  rw [initState_eq h0 h1 hmax]
  exact searchLoop_neg S v (init_neg h1 hmax hsum) fuel

/-- Passes over entries the search item is not below, with the upper bound at most
`2^30`: every pass is a "subdivide upper" that halves the distance to the upper
bound, no sum wraps, and the loop returns the upper bound. -/
theorem searchLoop_climbs {S : List Val} {v : Val} {lo0 hi : Int} (h0 : 0 ≤ lo0)
    (hhi : hi ≤ 1073741824)
    (hall : ∀ i, lo0 ≤ i → i ≤ hi → ∃ x, readAt S i = some x ∧ ¬ v < x) :
    ∀ (n : Nat) (s : SearchState), s.hi = hi → lo0 ≤ s.idx → s.idx ≤ hi →
      hi - s.idx < 2 ^ n → ∀ m : Nat, n + 1 ≤ m →
      searchLoop S v m s = Outcome.returned hi := by
  intro n
  induction n with
  | zero =>
    intro s e1 e2 e3 hgap m hm
    obtain ⟨m', rfl⟩ : ∃ m', m = m' + 1 := ⟨m - 1, by omega⟩
    obtain ⟨x, hx, hv⟩ := hall s.idx e2 e3
    have he : s.idx = s.hi := by
      simp only [pow_zero] at hgap
      omega
    have hstep : searchStep S v s = Step.accept s.idx := by
      simp only [searchStep, hx]; simp [hv, he]
    simp only [searchLoop, hstep]
    rw [he, e1]
  | succ n ih =>
    intro s e1 e2 e3 hgap m hm
    obtain ⟨m', rfl⟩ : ∃ m', m = m' + 1 := ⟨m - 1, by omega⟩
    obtain ⟨x, hx, hv⟩ := hall s.idx e2 e3
    by_cases he : s.idx = s.hi
    · have hstep : searchStep S v s = Step.accept s.idx := by
        simp only [searchStep, hx]; simp [hv, he]
      simp only [searchLoop, hstep]
      rw [he, e1]
    · have hw1 : wrapInt (s.idx + 1) = s.idx + 1 := wrapInt_eq (by omega) (by omega)
      obtain ⟨y, hy, hw⟩ := hall (s.idx + 1) (by omega) (by omega)
      have hc : ceilHalf (wrapInt (s.idx + s.hi)) = (s.idx + s.hi + 1) / 2 := by
        rw [wrapInt_eq (by omega) (by omega)]
        rfl
      have hstep : searchStep S v s =
          Step.next ⟨s.idx, s.hi, ceilHalf (wrapInt (s.idx + s.hi))⟩ := by
        simp only [searchStep, hx, hw1, hy]; simp [hv, he, hw]
      simp only [searchLoop, hstep]
      have hp : (2 : Int) ^ (n + 1) = 2 * 2 ^ n := by rw [pow_succ]; ring
      rw [hp] at hgap
      refine ih ⟨s.idx, s.hi, ceilHalf (wrapInt (s.idx + s.hi))⟩ e1
        (by show lo0 ≤ ceilHalf (wrapInt (s.idx + s.hi)); rw [hc]; omega)
        (by show ceilHalf (wrapInt (s.idx + s.hi)) ≤ hi; rw [hc]; omega)
        (by
          show hi - ceilHalf (wrapInt (s.idx + s.hi)) < 2 ^ n
          rw [hc]
          generalize (2 : Int) ^ n = p at hgap ⊢
          omega) m' (by omega)

/-- Passes over entries the search item is not below, with the upper bound at least
`2^30 + 2` and the index at least two below it: every pass is a "subdivide upper",
and before the index gets within one of the upper bound the `int` sum of index and
upper bound wraps, so that the loop reads at a negative index. -/
theorem searchLoop_climbs_and_wraps {S : List Val} {v : Val} {lo0 hi : Int} (h0 : 0 ≤ lo0)
    (hbig : 1073741826 ≤ hi) (hmax : hi ≤ 2147483647)
    (hall : ∀ i, lo0 ≤ i → i ≤ hi - 1 → ∃ x, readAt S i = some x ∧ ¬ v < x) :
    ∀ (n : Nat) (s : SearchState), s.hi = hi → lo0 ≤ s.idx → s.idx ≤ hi - 2 →
      hi - s.idx < 2 ^ n → ∀ m : Nat, n + 1 ≤ m →
      searchLoop S v m s = Outcome.fault := by
  intro n
  induction n with
  | zero =>
    intro s e1 e2 e3 hgap m hm
    simp only [pow_zero] at hgap
    omega
  | succ n ih =>
    intro s e1 e2 e3 hgap m hm
    obtain ⟨m', rfl⟩ : ∃ m', m = m' + 1 := ⟨m - 1, by omega⟩
    obtain ⟨x, hx, hv⟩ := hall s.idx e2 (by omega)
    have he : s.idx ≠ s.hi := by omega
    have hw1 : wrapInt (s.idx + 1) = s.idx + 1 := wrapInt_eq (by omega) (by omega)
    obtain ⟨y, hy, hw⟩ := hall (s.idx + 1) (by omega) (by omega)
    have hstep : searchStep S v s =
        Step.next ⟨s.idx, s.hi, ceilHalf (wrapInt (s.idx + s.hi))⟩ := by
      simp only [searchStep, hx, hw1, hy]; simp [hv, he, hw]
    simp only [searchLoop, hstep]
    by_cases hsum : s.idx + s.hi ≤ 2147483647
    · have hc : ceilHalf (wrapInt (s.idx + s.hi)) = (s.idx + s.hi + 1) / 2 := by
        rw [wrapInt_eq (by omega) hsum]
        rfl
      have hp : (2 : Int) ^ (n + 1) = 2 * 2 ^ n := by rw [pow_succ]; ring
      rw [hp] at hgap
      refine ih ⟨s.idx, s.hi, ceilHalf (wrapInt (s.idx + s.hi))⟩ e1
        (by show lo0 ≤ ceilHalf (wrapInt (s.idx + s.hi)); rw [hc]; omega)
        (by show ceilHalf (wrapInt (s.idx + s.hi)) ≤ hi - 2; rw [hc]; omega)
        (by
          show hi - ceilHalf (wrapInt (s.idx + s.hi)) < 2 ^ n
          rw [hc]
          generalize (2 : Int) ^ n = p at hgap ⊢
          omega) m' (by omega)
    · have hneg : ceilHalf (wrapInt (s.idx + s.hi)) < 0 := by
        rw [wrapInt_over (by omega) (by omega)]
        unfold ceilHalf
        omega
      have hm1 : 1 ≤ m' := by omega
      obtain ⟨m'', rfl⟩ : ∃ m'', m' = m'' + 1 := ⟨m' - 1, by omega⟩
      exact searchLoop_neg S v
        (by show ceilHalf (wrapInt (s.idx + s.hi)) < 0; exact hneg) m''

/-- Reading a list of `n` equal entries inside the list. -/
theorem readAt_replicate {n : Nat} {c : Val} {i : Int} (h0 : 0 ≤ i) (h1 : i < n) :
    readAt (List.replicate n c) i = some c := by
  unfold readAt
  rw [if_pos h0]
  exact List.getElem?_replicate_of_lt (by omega)

/-- Reading the list `0, 1, ..., n - 1` inside the list. -/
theorem readAt_range_map {n : Nat} {i : Int} (h0 : 0 ≤ i) (h1 : i < n) :
    readAt ((List.range n).map (fun k : Nat => Val.num (k : Int))) i = some (Val.num i) := by
  unfold readAt
  rw [if_pos h0, List.getElem?_map, List.getElem?_range (by omega)]
  simp only [Option.map_some']
  rw [Int.toNat_of_nonneg h0]

/-- A loop that returns within `n` passes returns the same index within more. -/
theorem searchLoop_mono (S : List Val) (v : Val) :
    ∀ (n : Nat) (s : SearchState) (r : Int), searchLoop S v n s = Outcome.returned r →
      ∀ k : Nat, searchLoop S v (n + k) s = Outcome.returned r := by
  intro n
  induction n with
  | zero =>
    intro s r h
    cases h
  | succ n ih =>
    intro s r h k
    rw [show n + 1 + k = (n + k) + 1 by omega]
    simp only [searchLoop] at h ⊢
    cases hstep : searchStep S v s with
    | next s' =>
      rw [hstep] at h
      exact ih s' r h k
    | accept i =>
      rw [hstep] at h
      exact h
    | fault =>
      rw [hstep] at h
      cases h

/-- A call that returns within `fuel` passes returns the same index within more. -/
theorem search_mono (S : List Val) (v : Val) (b : Int × Int) (fuel : Nat) (r : Int)
    (h : BinarySearchSortedList fuel S v b = Outcome.returned r) (k : Nat) :
    BinarySearchSortedList (fuel + k) S v b = Outcome.returned r := by
  unfold BinarySearchSortedList at h ⊢
  cases hinit : initState b with
  | none =>
    rw [hinit] at h
    cases h
  | some s =>
    rw [hinit] at h
    exact searchLoop_mono S v fuel s r h k

/-- The search over the full range of a list of `2^30 + 1` entries, none of them
above the search item, returns the last index `2^30` within `31` passes. -/
theorem full_range_climbs (S : List Val) (v : Val)
    (hall : ∀ i : Int, 0 ≤ i → i ≤ 1073741824 → ∃ x, readAt S i = some x ∧ ¬ v < x)
    (fuel : Nat) :
    BinarySearchSortedList (fuel + 31) S v (0, 1073741824) = Outcome.returned 1073741824 := by
  unfold BinarySearchSortedList
  rw [show initState (0, 1073741824) = some ⟨0, 1073741824, 536870912⟩ from rfl]
  exact searchLoop_climbs (le_refl 0) (le_refl _) hall 30 ⟨0, 1073741824, 536870912⟩ rfl
    (by decide) (by decide) (by decide) (fuel + 31) (by omega)

/-- The search over the full range of a list of `2^30 + 3` entries, of which all but
the last are not above the search item, reads outside the list within `31` passes:
the `int` sum of index and upper bound wraps. -/
theorem full_range_wraps (S : List Val) (v : Val)
    (hall : ∀ i : Int, 0 ≤ i → i ≤ 1073741825 → ∃ x, readAt S i = some x ∧ ¬ v < x)
    (fuel : Nat) :
    BinarySearchSortedList (fuel + 31) S v (0, 1073741826) = Outcome.fault := by
  unfold BinarySearchSortedList
  rw [show initState (0, 1073741826) = some ⟨0, 1073741826, 536870913⟩ from rfl]
  exact searchLoop_climbs_and_wraps (le_refl 0) (by decide) (by decide)
    (fun i h0 (h1 : i ≤ 1073741826 - 1) => hall i h0 (by omega)) 30 ⟨0, 1073741826, 536870913⟩ rfl
    (by decide) (by decide) (by decide) (fuel + 31) (by omega)

/-- The search of `full_range_wraps` returns no index, whatever the number of
passes. -/
theorem full_range_never_returns (S : List Val) (v : Val)
    (hall : ∀ i : Int, 0 ≤ i → i ≤ 1073741825 → ∃ x, readAt S i = some x ∧ ¬ v < x)
    (fuel : Nat) (r : Int) :
    BinarySearchSortedList fuel S v (0, 1073741826) ≠ Outcome.returned r := by
  intro h
  have h31 := search_mono S v _ fuel r h 31
  rw [full_range_wraps S v hall fuel] at h31
  cases h31

/-- The MATLAB reference on a range of one entry the search item is not below:
it returns that index in its first pass. -/
theorem matlab_single_entry (S : List Val) (v x : Val) (i : Int)
    (hx : matlabRead S i = some x) (hv : ¬ v < x) (fuel : Nat) :
    matlabBinarySearchSortedList (fuel + 1) S v (i, i) = Outcome.returned i := by
  have hr : roundHalf (i + i) = i := by
    unfold roundHalf
    split <;> omega
  simp only [matlabBinarySearchSortedList, matlabLoop, matlabStep, hr, hx]
  simp [hv]

/-! ## The single search on lists of at most `2^30` entries -/

theorem Val.le_trans {a b c : Val} (h1 : a ≤ b) (h2 : b ≤ c) : a ≤ c := by
  cases a <;> cases b <;> cases c <;> simp [Val.le_iff, Val.ble] at h1 h2 ⊢
  omega

theorem Val.ne_nan_of_le {a b : Val} (h : a ≤ b) : a ≠ Val.nan ∧ b ≠ Val.nan := by
  cases a <;> cases b <;> simp [Val.le_iff, Val.ble] at h ⊢

/-- In a non-decreasing list, an index that is the upper bound or is followed by an
entry above the search item is not below any index of the range whose entry is not
above the search item. -/
theorem largest_of_sound {S : List Val} (hS : List.Pairwise (· ≤ ·) S) {v : Val} {hi r : Int}
    (hr : r = hi ∨ ∃ y, readAt S (r + 1) = some y ∧ v < y) {i : Int} {x : Val}
    (hi' : i ≤ hi) (hx : readAt S i = some x) (hv : x ≤ v) : i ≤ r := by
  rcases hr with rfl | ⟨y, hy, hw⟩
  · exact hi'
  · by_contra hcon
    rcases (by omega : r + 1 = i ∨ r + 1 < i) with he | hlt
    · rw [he, hx] at hy
      cases hy
      exact Val.not_lt_of_le hv hw
    · exact Val.not_lt_of_le hv (Val.lt_of_lt_of_le hw (readAt_mono hS hlt hy hx))

/-- Below the size at which an `int` sum of two indices can wrap, the search does
what the usage comment of the file says: on a non-decreasing list of at most `2^30`
entries, for a search range `0 ≤ lo ≤ hi < length` that holds some entry not above
the search item, `BinarySearchSortedList` returns (given at least `2 * (hi - lo) + 2`
passes of its loop) the largest index of the range whose entry is not above the
search item. -/
theorem search_largest_on_short_list (S : List Val) (hS : List.Pairwise (· ≤ ·) S)
    (hsize : S.length ≤ 1073741824) (v : Val) (lo hi : Int) (h0 : 0 ≤ lo) (h1 : lo ≤ hi)
    (hlen : hi < S.length)
    (hex : ∃ i x, lo ≤ i ∧ i ≤ hi ∧ readAt S i = some x ∧ x ≤ v)
    (fuel : Nat) (hfuel : 2 * (hi - lo) + 2 ≤ (fuel : Int)) :
    ∃ r, BinarySearchSortedList fuel S v (lo, hi) = Outcome.returned r ∧
      lo ≤ r ∧ r ≤ hi ∧ (∃ x, readAt S r = some x ∧ x ≤ v) ∧
      ∀ i x, lo ≤ i → i ≤ hi → readAt S i = some x → x ≤ v → i ≤ r := by
  obtain ⟨i, x, hi1, hi2, hx, hv⟩ := hex
  obtain ⟨a, ha⟩ := readAt_defined (S := S) (i := lo) h0 (by omega)
  have hav : ¬ v < a := by
    rcases (by omega : lo = i ∨ lo < i) with he | hlt
    · rw [he, hx] at ha
      cases ha
      exact Val.not_lt_of_le hv
    · exact Val.not_lt_of_le (Val.le_trans (readAt_mono hS hlt ha hx) hv)
  obtain ⟨r, hr, hr1, hr2, ⟨y, hy, hyv⟩, hr4⟩ :=
    search_returns S v lo hi h0 h1 (by omega) hlen ⟨a, ha, hav⟩ fuel hfuel
  have hir : i ≤ r := largest_of_sound hS hr4 hi2 hx hv
  have hyle : y ≤ v := by
    rcases (by omega : i = r ∨ i < r) with he | hlt
    · rw [he, hy] at hx
      cases hx
      exact hv
    · exact Val.le_of_not_lt hyv (Val.ne_nan_of_le (readAt_mono hS hlt hx hy)).2
        (Val.ne_nan_of_le hv).2
  exact ⟨r, hr, hr1, hr2, ⟨y, hy, hyle⟩, fun j z _ hj hz hzv => largest_of_sound hS hr4 hj hz hzv⟩

/-! ## Unfolding a run of `mexFunction` -/

/-- A run on two items or more in which the search for the last item reads outside
the list: the run stops there, with only the first entry of the output written. -/
theorem mexFunction_last_faults (fuel : Nat) (S Q : List Val) (hn : 2 ≤ Q.length)
    (q0 ql : Val) (r0 : Int)
    (hq0 : readAt Q 0 = some q0) (hql : readAt Q ((Q.length : Int) - 1) = some ql)
    (hr0 : BinarySearchSortedList fuel S q0 (0, (S.length : Int) - 1) = Outcome.returned r0)
    (hrl : BinarySearchSortedList fuel S ql (r0, (S.length : Int) - 1) = Outcome.fault) :
    mexFunction fuel S Q =
      ⟨(List.replicate Q.length 0).set 0 (r0 + 1),
        [(0, (S.length : Int) - 1), (r0, (S.length : Int) - 1)], Status.fault⟩ := by
  unfold mexFunction
  simp only [hq0, hr0, hql, hrl]
  rw [if_pos (by omega)]

/-- A run on two items or more that comes to its end has found the first and the
last item. -/
theorem mexFunction_finished_two (fuel : Nat) (S Q : List Val) (hn : 2 ≤ Q.length)
    (hfin : (mexFunction fuel S Q).status = Status.finished) :
    ∃ q0 ql r0 rl, readAt Q 0 = some q0 ∧ readAt Q ((Q.length : Int) - 1) = some ql ∧
      BinarySearchSortedList fuel S q0 (0, (S.length : Int) - 1) = Outcome.returned r0 ∧
      BinarySearchSortedList fuel S ql (r0, (S.length : Int) - 1) = Outcome.returned rl := by
  unfold mexFunction at hfin
  cases hq0 : readAt Q 0 with
  | none => simp [hq0] at hfin
  | some q0 =>
    cases hr0 : BinarySearchSortedList fuel S q0 (0, (S.length : Int) - 1) with
    | fault => simp [hq0, hr0] at hfin
    | running => simp [hq0, hr0] at hfin
    | returned r0 =>
      have hgt : (Q.length : Int) > 1 := by omega
      simp only [hq0, hr0, if_pos hgt] at hfin
      cases hql : readAt Q ((Q.length : Int) - 1) with
      | none => simp [hql] at hfin
      | some ql =>
        cases hrl : BinarySearchSortedList fuel S ql (r0, (S.length : Int) - 1) with
        | fault => simp [hql, hrl] at hfin
        | running => simp [hql, hrl] at hfin
        | returned rl => exact ⟨q0, ql, r0, rl, rfl, rfl, hr0, hrl⟩

/-- C3, evaluated on the code: for the list `[1,3,3,5,7]`, the search item `0` and
the range `[0,4]` the call of `BinarySearchSortedList` is still in its loop after
any number of passes; it returns no index. -/
theorem below_range_never_returns :
    ∀ fuel : Nat, BinarySearchSortedList fuel [1, 3, 3, 5, 7] 0 (0, 4) = Outcome.running :=
  fun fuel => search_runs_forever [1, 3, 3, 5, 7] (by decide) 0 1 0 4 (by decide) (by decide)
    (by decide) (by decide) (by decide) (by decide) fuel

/-! ## Progress of the loop -/

/-- C2, evaluated on the code: for the non-decreasing list `[1,3,3,5,7]` and the
non-decreasing items `[7,8,9]`, the search for the interior item `8` over the full
range `[0,4]` returns `4`, but `mexFunction` hands that search the range `[4,5]`,
reads `vfList[5]` outside the list and never writes the interior entry: with three
or more passes per search the run ends in a fault with the output `[5,0,5]`, and
with any number of passes it does not run to its end. -/
theorem batch_differs_at_list_end :
    (∀ fuel : Nat,
      BinarySearchSortedList (fuel + 3) [1, 3, 3, 5, 7] 8 (0, 4) = Outcome.returned 4) ∧
    (∀ fuel : Nat, mexFunction (fuel + 3) [1, 3, 3, 5, 7] [7, 8, 9] =
      ⟨[5, 0, 5], [(0, 4), (4, 4), (4, 5)], Status.fault⟩) ∧
    (∀ fuel : Nat, (mexFunction fuel [1, 3, 3, 5, 7] [7, 8, 9]).status ≠ Status.finished) := by
  refine ⟨fun _ => rfl, fun _ => rfl, ?_⟩
  intro fuel
  rcases fuel with _ | _ | _ | fuel
  · decide
  · decide
  · decide
  · rw [show mexFunction (fuel + 3) [1, 3, 3, 5, 7] [7, 8, 9] =
      ⟨[5, 0, 5], [(0, 4), (4, 4), (4, 5)], Status.fault⟩ from rfl]
    decide

/-- C4, evaluated on the code: for the one-entry list `[1]` and the items `[1,1,1]`
the third call of `BinarySearchSortedList` is handed the bounds `(0, 1)`, whose
upper bound is not below the length of the list. -/
theorem clamped_range_leaves_list :
    ∀ fuel : Nat,
      (mexFunction (fuel + 1) [1] [1, 1, 1]).calls = [(0, 0), (0, 0), (0, 1)] ∧
      ¬ ((1 : Int) < (([1] : List Val).length : Int)) :=
  fun _ => ⟨rfl, by decide⟩

/-- C7, evaluated on the code: for the one-entry list `[5]` and the items `[5,6,7]`
the search for the interior item is handed the bounds `(0, 1)`, not `(0, 0)`; it
reads `vfList[1]` outside the list and the interior entry is never written. -/
theorem single_entry_list_three_items :
    ∀ fuel : Nat, mexFunction (fuel + 1) [5] [5, 6, 7] =
      ⟨[1, 0, 1], [(0, 0), (0, 0), (0, 1)], Status.fault⟩ :=
  fun _ => rfl

/-- C13 as stated fails.  On the `double` file, for the list `[1]`, the range `[0,0]`
and a NaN search item the call returns `0` although `S[0] ≤ NaN` is false.  On a
list of `2^30 + 3` equal entries and the full range, the search for that entry
never returns although `S[0] ≤ v`: the `int` sum of index and upper bound wraps and
the call reads at a negative index. -/
theorem returns_iff_fails :
    ¬ ((∃ fuel r, BinarySearchSortedList fuel [1] Val.nan (0, 0) = Outcome.returned r) ↔
      (1 : Val) ≤ Val.nan) ∧
    ¬ ((∃ fuel r, BinarySearchSortedList fuel (List.replicate 1073741827 (0 : Val)) 0
        (0, 1073741826) = Outcome.returned r) ↔ (0 : Val) ≤ 0) := by
  constructor
  · intro h
    exact absurd (h.1 ⟨1, 0, by decide⟩) (by decide)
  · intro h
    obtain ⟨fuel, r, hr⟩ := h.2 (by decide)
    exact full_range_never_returns _ 0
      (fun i hi0 hi1 => ⟨0, readAt_replicate (by omega) (by omega), by decide⟩) fuel r hr

/-- C13, amended: on a non-decreasing list of at most `2^30` entries, for a search
range `0 ≤ lo ≤ hi < length`, `BinarySearchSortedList` returns (for some number of
passes) if and only if `v < S[lo]` is false; when `v < S[lo]` the call is still in
its loop after any number of passes, and from pass `hi - lo + 2` on every pass
starts with bounds `[lo, lo]` and index `lo` and takes the "subdivide lower" branch
back to that same state. -/
theorem returns_iff_item_not_below_lower_entry (S : List Val)
    (hS : List.Pairwise (· ≤ ·) S) (hsize : S.length ≤ 1073741824) (v a : Val)
    (lo hi : Int) (h0 : 0 ≤ lo) (h1 : lo ≤ hi) (hlen : hi < S.length)
    (ha : readAt S lo = some a) :
    ((∃ fuel r, BinarySearchSortedList fuel S v (lo, hi) = Outcome.returned r) ↔ ¬ v < a) ∧
    (v < a →
      (∀ fuel, BinarySearchSortedList fuel S v (lo, hi) = Outcome.running) ∧
      ∀ k : Nat, hi - lo + 2 ≤ (k : Int) →
        stateAfter S v (lo, hi) k = some ⟨lo, lo, lo⟩ ∧
        searchStep S v ⟨lo, lo, lo⟩ = Step.next ⟨lo, lo, lo⟩) := by
  have hsmall : hi ≤ 1073741823 := by omega
  refine ⟨⟨?_, ?_⟩, ?_⟩
  · rintro ⟨fuel, r, hr⟩ hva
    have := search_runs_forever S hS v a lo hi h0 h1 hsmall hlen ha hva fuel
    rw [this] at hr
    cases hr
  · intro hav
    obtain ⟨r, hr, -⟩ := search_returns S v lo hi h0 h1 hsmall hlen ⟨a, ha, hav⟩
      (2 * (hi - lo) + 2).toNat (by omega)
    exact ⟨_, r, hr⟩
  · intro hva
    refine ⟨fun fuel => search_runs_forever S hS v a lo hi h0 h1 hsmall hlen ha hva fuel, ?_⟩
    intro k hk
    obtain ⟨s, hs, e1, e2, e3, e4, e5, e6⟩ := stateAfter_below hS h0 h1 hsmall hlen ha hva k
    have hidx : s.idx = lo := by omega
    have hhi : s.hi = lo := by omega
    have hs' : s = ⟨lo, lo, lo⟩ := by
      cases s
      simp only [SearchState.mk.injEq]
      exact ⟨e1, hhi, hidx⟩
    refine ⟨by rw [hs, hs'], ?_⟩
    have hf : floorHalf (wrapInt (lo + lo)) = lo := by
      rw [wrapInt_eq (by omega) (by omega)]
      unfold floorHalf
      omega
    simp only [searchStep, ha]
    simp [hva, hf]

/-- Witness for C13, amended: the list `[1,3,3,5,7]`, the range `[0,4]` and the search
item `0`, below the first entry `1`. -/
theorem returns_iff_item_not_below_lower_entry_witness :
    ((∃ fuel r, BinarySearchSortedList fuel [1, 3, 3, 5, 7] 0 (0, 4) = Outcome.returned r) ↔
      ¬ (0 : Val) < 1) ∧
    ((0 : Val) < 1 →
      (∀ fuel, BinarySearchSortedList fuel [1, 3, 3, 5, 7] 0 (0, 4) = Outcome.running) ∧
      ∀ k : Nat, (4 : Int) - 0 + 2 ≤ (k : Int) →
        stateAfter [1, 3, 3, 5, 7] 0 (0, 4) k = some ⟨0, 0, 0⟩ ∧
        searchStep [1, 3, 3, 5, 7] 0 ⟨0, 0, 0⟩ = Step.next ⟨0, 0, 0⟩) :=
  returns_iff_item_not_below_lower_entry [1, 3, 3, 5, 7] (by decide) (by decide) 0 1 0 4
    (by decide) (by decide) (by decide) (by decide)

/-! ## The single search on lists of more than `2^30` entries -/

/-- C1, evaluated on the code: on the non-decreasing list of `2^30 + 1` entries `0`,
with the search item `0` and the range `[2^30, 2^30]`, whose entry is not above the
item, the `int` sum `lo + hi = 2^31` wraps to `-2^31`: the call starts with index
`-2^30` and reads outside the list in its first pass, instead of returning
`2^30`. -/
theorem largest_index_search_wraps :
    List.Pairwise (· ≤ ·) (List.replicate 1073741825 (0 : Val)) ∧
    readAt (List.replicate 1073741825 (0 : Val)) 1073741824 = some 0 ∧
    stateAfter (List.replicate 1073741825 (0 : Val)) 0 (1073741824, 1073741824) 0 =
      some ⟨1073741824, 1073741824, -1073741824⟩ ∧
    ∀ fuel : Nat, BinarySearchSortedList (fuel + 1) (List.replicate 1073741825 (0 : Val)) 0
      (1073741824, 1073741824) = Outcome.fault :=
  ⟨List.pairwise_replicate.2 (Or.inr (by decide)),
    readAt_replicate (by omega) (by omega), rfl,
    fun fuel => search_wraps_at_entry _ 0 1073741824 1073741824 (by decide) (by decide)
      (by decide) (by decide) fuel⟩

/-- C6, evaluated on the code: on the non-decreasing list of `2^30 + 2` entries `5`,
with the search item `5` and the range `[2^30 - 1, 2^30 + 1]`, where `v ≥ S[hi]`, the
`int` sum `lo + hi = 2^31` wraps to `-2^31`: the call starts with index `-2^30` and
reads outside the list in its first pass, instead of returning `hi`. -/
theorem upper_boundary_search_wraps :
    List.Pairwise (· ≤ ·) (List.replicate 1073741826 (5 : Val)) ∧
    readAt (List.replicate 1073741826 (5 : Val)) 1073741825 = some 5 ∧
    stateAfter (List.replicate 1073741826 (5 : Val)) 5 (1073741823, 1073741825) 0 =
      some ⟨1073741823, 1073741825, -1073741824⟩ ∧
    ∀ fuel : Nat, BinarySearchSortedList (fuel + 1) (List.replicate 1073741826 (5 : Val)) 5
      (1073741823, 1073741825) = Outcome.fault :=
  ⟨List.pairwise_replicate.2 (Or.inr (by decide)),
    readAt_replicate (by omega) (by omega), rfl,
    fun fuel => search_wraps_at_entry _ 5 1073741823 1073741825 (by decide) (by decide)
      (by decide) (by decide) fuel⟩

/-- C5, evaluated on the code: on the non-decreasing list of `2^30 + 3` entries `4`,
the search for the entry at index `0` over the full range `[0, 2^30 + 2]` takes
"subdivide upper" passes until the `int` sum of index and upper bound wraps, then
reads at a negative index: with `31` passes or more the call ends in a fault, and
with any number of passes it returns no index. -/
theorem last_duplicate_search_wraps :
    List.Pairwise (· ≤ ·) (List.replicate 1073741827 (4 : Val)) ∧
    readAt (List.replicate 1073741827 (4 : Val)) 0 = some 4 ∧
    (∀ fuel : Nat, BinarySearchSortedList (fuel + 31) (List.replicate 1073741827 (4 : Val)) 4
      (0, ((List.replicate 1073741827 (4 : Val)).length : Int) - 1) = Outcome.fault) ∧
    (∀ (fuel : Nat) (r : Int),
      BinarySearchSortedList fuel (List.replicate 1073741827 (4 : Val)) 4
        (0, ((List.replicate 1073741827 (4 : Val)).length : Int) - 1) ≠
          Outcome.returned r) := by
  have hlen : ((List.replicate 1073741827 (4 : Val)).length : Int) - 1 = 1073741826 := by
    rw [List.length_replicate]
    rfl
  have hall : ∀ i : Int, 0 ≤ i → i ≤ 1073741825 →
      ∃ x, readAt (List.replicate 1073741827 (4 : Val)) i = some x ∧ ¬ (4 : Val) < x :=
    fun i hi0 hi1 => ⟨4, readAt_replicate (by omega) (by omega), by decide⟩
  rw [hlen]
  exact ⟨List.pairwise_replicate.2 (Or.inr (by decide)),
    readAt_replicate (by omega) (by omega), full_range_wraps _ 4 hall,
    full_range_never_returns _ 4 hall⟩

/-- C9, evaluated on the code: on the strictly increasing list `0, 1, ..., 2^30 + 2`
with the search item `2^30 + 1`, which lies between the first and the last entry,
the search over the full range takes "subdivide upper" passes until the `int` sum of
index and upper bound wraps, then reads at a negative index: with `31` passes or
more the call ends in a fault, and with any number of passes it returns no
index. -/
theorem bracketing_search_wraps :
    List.Pairwise (· < ·) ((List.range 1073741827).map (fun k : Nat => Val.num (k : Int))) ∧
    readAt ((List.range 1073741827).map (fun k : Nat => Val.num (k : Int))) 0 = some 0 ∧
    readAt ((List.range 1073741827).map (fun k : Nat => Val.num (k : Int))) 1073741826 =
      some 1073741826 ∧
    (0 : Val) ≤ 1073741825 ∧ (1073741825 : Val) < 1073741826 ∧
    (∀ fuel : Nat,
      BinarySearchSortedList (fuel + 31) ((List.range 1073741827).map (fun k : Nat => Val.num (k : Int)))
        1073741825 (0, 1073741826) = Outcome.fault) ∧
    (∀ (fuel : Nat) (r : Int),
      BinarySearchSortedList fuel ((List.range 1073741827).map (fun k : Nat => Val.num (k : Int)))
        1073741825 (0, 1073741826) ≠ Outcome.returned r) := by
  have hall : ∀ i : Int, 0 ≤ i → i ≤ 1073741825 →
      ∃ x, readAt ((List.range 1073741827).map (fun k : Nat => Val.num (k : Int))) i = some x ∧
        ¬ (1073741825 : Val) < x := by
    intro i hi0 hi1
    refine ⟨Val.num i, readAt_range_map (by omega) (by omega), ?_⟩
    show ¬ Val.num 1073741825 < Val.num i
    rw [Val.num_lt_num]
    omega
  refine ⟨?_, readAt_range_map (by omega) (by omega),
    readAt_range_map (by omega) (by omega), by decide, by decide,
    full_range_wraps _ 1073741825 hall, full_range_never_returns _ 1073741825 hall⟩
  refine List.Pairwise.map _ ?_ (List.pairwise_lt_range 1073741827)
  intro a b hab
  show Val.num a < Val.num b
  rw [Val.num_lt_num]
  exact_mod_cast hab

/-- C15, evaluated on the code: on the list of `2^30 + 1` entries `3`, with the search
item `3` and the range `[2^30, 2^30]`, the first pass starts with index `-2^30` and
reads `vfList[-2^30]`, an index outside the range and outside the list. -/
theorem read_outside_range :
    stateAfter (List.replicate 1073741825 (3 : Val)) 3 (1073741824, 1073741824) 0 =
      some ⟨1073741824, 1073741824, -1073741824⟩ ∧
    stepReads (List.replicate 1073741825 (3 : Val)) 3
      ⟨1073741824, 1073741824, -1073741824⟩ = [-1073741824] ∧
    readAt (List.replicate 1073741825 (3 : Val)) (-1073741824) = none ∧
    searchStep (List.replicate 1073741825 (3 : Val)) 3
      ⟨1073741824, 1073741824, -1073741824⟩ = Step.fault :=
  ⟨rfl, rfl, rfl, rfl⟩

/-- C11, evaluated on the code: on the list of `2^30 + 1` entries `0`, with the search
item `0` and the 0-based range `[2^30, 2^30]`, the MATLAB reference of the header
comment, run on the 1-based bounds `[2^30 + 1, 2^30 + 1]`, returns `2^30 + 1` in
its first pass, while the C function, whose `int` sum `lo + hi` wraps, starts with
index `-2^30` and reads outside the list. -/
theorem c_search_leaves_matlab_reference :
    (∀ fuel : Nat, matlabBinarySearchSortedList (fuel + 1) (List.replicate 1073741825 (0 : Val))
      0 (1073741825, 1073741825) = Outcome.returned 1073741825) ∧
    (∀ fuel : Nat, BinarySearchSortedList (fuel + 1) (List.replicate 1073741825 (0 : Val)) 0
      (1073741824, 1073741824) = Outcome.fault) ∧
    (∀ (fuel : Nat) (r : Int),
      BinarySearchSortedList fuel (List.replicate 1073741825 (0 : Val)) 0
        (1073741824, 1073741824) ≠ Outcome.returned r) := by
  have hfault : ∀ fuel : Nat,
      BinarySearchSortedList (fuel + 1) (List.replicate 1073741825 (0 : Val)) 0
        (1073741824, 1073741824) = Outcome.fault :=
    fun fuel => search_wraps_at_entry _ 0 1073741824 1073741824 (by decide) (by decide)
      (by decide) (by decide) fuel
  refine ⟨?_, hfault, ?_⟩
  · intro fuel
    have hread : matlabRead (List.replicate 1073741825 (0 : Val)) 1073741825 = some 0 := by
      unfold matlabRead
      rw [if_pos (by omega)]
      exact List.getElem?_replicate_of_lt (by omega)
    exact matlab_single_entry _ 0 0 1073741825 hread (by decide) fuel
  · intro fuel r
    rcases fuel with _ | fuel
    · intro h
      cases h
    · intro h
      rw [hfault fuel] at h
      cases h

/-- C12, evaluated on the code: for the non-decreasing list of `2^30 + 1` entries `0`
and the two items `[0, 0]`, where `S[0] ≤ Q[0]` and `n ≤ 2`, the search for the
first item returns `2^30` and the search for the last item is handed the range
`[2^30, 2^30]`, whose `int` sum wraps: it starts with index `-2^30` and reads
outside the list.  With `31` passes or more per search the run ends in a fault with
the last entry not written, and with any number of passes it does not run to its
end. -/
theorem batch_wraps_on_long_list :
    List.Pairwise (· ≤ ·) (List.replicate 1073741825 (0 : Val)) ∧
    List.Pairwise (· ≤ ·) ([0, 0] : List Val) ∧
    readAt (List.replicate 1073741825 (0 : Val)) 0 = some 0 ∧
    (∀ fuel : Nat, mexFunction (fuel + 31) (List.replicate 1073741825 (0 : Val)) [0, 0] =
      ⟨[1073741825, 0], [(0, 1073741824), (1073741824, 1073741824)], Status.fault⟩) ∧
    (∀ fuel : Nat, (mexFunction fuel (List.replicate 1073741825 (0 : Val)) [0, 0]).status ≠
      Status.finished) := by
  have hall : ∀ i : Int, 0 ≤ i → i ≤ 1073741824 →
      ∃ x, readAt (List.replicate 1073741825 (0 : Val)) i = some x ∧ ¬ (0 : Val) < x :=
    fun i hi0 hi1 => ⟨0, readAt_replicate (by omega) (by omega), by decide⟩
  have hlen : ((List.replicate 1073741825 (0 : Val)).length : Int) - 1 = 1073741824 := by
    rw [List.length_replicate]
    rfl
  have hfirst : ∀ fuel : Nat, ∀ r : Int,
      BinarySearchSortedList fuel (List.replicate 1073741825 (0 : Val)) 0 (0, 1073741824) =
        Outcome.returned r → r = 1073741824 := by
    intro fuel r hr
    have h31 := search_mono _ _ _ fuel r hr 31
    rw [full_range_climbs _ 0 hall fuel] at h31
    cases h31
    rfl
  have hfault : ∀ fuel : Nat,
      BinarySearchSortedList (fuel + 1) (List.replicate 1073741825 (0 : Val)) 0
        (1073741824, 1073741824) = Outcome.fault :=
    fun fuel => search_wraps_at_entry _ 0 1073741824 1073741824 (by decide) (by decide)
      (by decide) (by decide) fuel
  have q0 : readAt ([0, 0] : List Val) 0 = some 0 := rfl
  refine ⟨List.pairwise_replicate.2 (Or.inr (by decide)), by decide,
    readAt_replicate (by omega) (by omega), ?_, ?_⟩
  · intro fuel
    rw [mexFunction_last_faults (fuel + 31) _ [0, 0] (by decide) 0 0 1073741824 q0 rfl
      (by rw [hlen]; exact full_range_climbs _ 0 hall fuel)
      (by rw [hlen]; exact hfault (fuel + 30)), hlen]
    rfl
  · intro fuel hfin
    obtain ⟨q0', ql, r0, rl, hq0, hql, hr0, hrl⟩ :=
      mexFunction_finished_two fuel _ [0, 0] (by decide) hfin
    rw [hlen] at hr0 hrl
    rw [q0] at hq0
    cases hq0
    have hq1 : readAt ([0, 0] : List Val) ((([0, 0] : List Val).length : Int) - 1) = some 0 :=
      rfl
    rw [hq1] at hql
    cases hql
    have hr := hfirst fuel r0 hr0
    subst hr
    rcases fuel with _ | fuel
    · cases hrl
    · rw [hfault fuel] at hrl
      cases hrl

end Bot
